import Mathlib

/-!
Verification of the ranking core of `atuin-z`, a frecency-based
directory-jumping utility.

Shallow embedding conventions:
* Rust `i64` values are modelled as `Int`; `i64::saturating_sub` clamps the
  mathematical difference to the `i64` range.
* Rust `f64` scores are modelled as exact rationals (`ℚ`); the score pipeline
  performs only integer-to-float conversion and multiplication by the constants
  4.0, 2.0, 0.5, 0.25 and 1.5, and never produces NaN.  The `f64::partial_cmp`
  operation, which is partial because of NaN, is modelled separately on
  `Option ℚ` (with `none` standing for NaN) to state its treatment by the
  sorting comparator.
* Rust `String`/`&str` are Lean `String`; `str::to_lowercase` is modelled by
  `String.toLower` and `str::contains` by substring containment on the
  underlying character lists.
* `Vec<T>` and slices are `List T`; fallible lookups are `Option`.
-/

namespace AtuinZ

/-- A row from the aggregated history query (`db.rs`, `DirEntry`). -/
structure DirEntry where
  cwd : String
  freq : Int
  last_visit_ns : Int
deriving DecidableEq, Repr

/-- Scoring mode (`frecency.rs`, `Mode`). -/
inductive Mode where
  | Frecency
  | Frequency
  | Recency
deriving DecidableEq, Repr

/-- `frecency.rs`: `NANOS_PER_SECOND`. -/
def NANOS_PER_SECOND : Int := 1000000000

/-- `frecency.rs`: `HOUR_NS = 3600 * NANOS_PER_SECOND`. -/
def HOUR_NS : Int := 3600 * NANOS_PER_SECOND

/-- `frecency.rs`: `DAY_NS = 24 * HOUR_NS`. -/
def DAY_NS : Int := 24 * HOUR_NS

/-- `frecency.rs`: `WEEK_NS = 7 * DAY_NS`. -/
def WEEK_NS : Int := 7 * DAY_NS

/-- Smallest `i64` value. -/
def I64_MIN : Int := -(2 ^ 63)

/-- Largest `i64` value. -/
def I64_MAX : Int := 2 ^ 63 - 1

/-- `i64::saturating_sub`: the difference clamped to the `i64` range. -/
def saturating_sub (a b : Int) : Int := max I64_MIN (min I64_MAX (a - b))

/-- `frecency.rs`, `score`: score a directory entry at time `now_ns` under the
given mode.  Float arithmetic is embedded as exact rational arithmetic. -/
def score (entry : DirEntry) (now_ns : Int) (mode : Mode) : ℚ :=
  match mode with
  | Mode.Frecency =>
    let age := saturating_sub now_ns entry.last_visit_ns
    let weight : ℚ :=
      if age < HOUR_NS then 4
      else if age < DAY_NS then 2
      else if age < WEEK_NS then 1 / 2
      else 1 / 4
    (entry.freq : ℚ) * weight
  | Mode.Frequency => (entry.freq : ℚ)
  | Mode.Recency => (entry.last_visit_ns : ℚ)

/-- Modelled from the claim's words: the bucket weight as a function of a
(clamped, non-negative) age, used to compare against the code's `score`. -/
def claimWeight (age : Int) : ℚ :=
  if age < HOUR_NS then 4
  else if age < DAY_NS then 2
  else if age < WEEK_NS then 1 / 2
  else 1 / 4

/-- The in-code weight (computed from the saturating difference) agrees with
the claim's weight (computed from the difference clamped below at 0): both
clamps land in the same age bucket because `I64_MIN < 0` and
`WEEK_NS ≤ I64_MAX`. -/
theorem claimWeight_saturating_sub (now last : Int) :
    claimWeight (saturating_sub now last) = claimWeight (max 0 (now - last)) := by
  unfold claimWeight saturating_sub
  have h1 : HOUR_NS = 3600000000000 := by norm_num [HOUR_NS, NANOS_PER_SECOND]
  have h2 : DAY_NS = 86400000000000 := by norm_num [DAY_NS, HOUR_NS, NANOS_PER_SECOND]
  have h3 : WEEK_NS = 604800000000000 := by norm_num [WEEK_NS, DAY_NS, HOUR_NS, NANOS_PER_SECOND]
  have h4 : I64_MIN = -9223372036854775808 := by norm_num [I64_MIN]
  have h5 : I64_MAX = 9223372036854775807 := by norm_num [I64_MAX]
  rw [h1, h2, h3, h4, h5]
  split_ifs <;> first | rfl | (exfalso; omega)

end AtuinZ

namespace AtuinZ

/-- `str::to_lowercase`, modelled over the ASCII range: lower-case every
character.  (Defined over the character list so it evaluates by `decide`.) -/
def toLowerStr (s : String) : String := String.mk (s.data.map Char.toLower)

/-- Is the first list a prefix of the second?  (Helper for substring tests.) -/
def isPrefixList (pat s : List Char) : Bool :=
  match pat, s with
  | [], _ => true
  | _ :: _, [] => false
  | p :: ps, c :: cs => p == c && isPrefixList ps cs

/-- Is `pat` a contiguous substring of `s`? -/
def isSubstrList (pat s : List Char) : Bool :=
  match s with
  | [] => pat.isEmpty
  | _ :: cs => isPrefixList pat s || isSubstrList pat cs

/-- `str::contains`: `strContains s pat` holds when `pat` occurs contiguously
in `s`. -/
def strContains (s pat : String) : Bool := isSubstrList pat.data s.data

/-- Split a character list on `'/'` (helper for `Path::file_name`). -/
def splitOnSlash (cs : List Char) : List (List Char) :=
  match cs with
  | [] => [[]]
  | c :: rest =>
    match splitOnSlash rest with
    | [] => [[]]
    | g :: gs => if c = '/' then [] :: g :: gs else (c :: g) :: gs

/-- `std::path::Path::file_name` on Unix paths: the final path component,
skipping empty components and `"."`; `none` when there is no component or the
final component is `".."`. -/
def file_name (p : String) : Option String :=
  let comps := (splitOnSlash p.data).filter fun c => !c.isEmpty && !(c == ['.'])
  match comps.getLast? with
  | none => none
  | some c => if c == ['.', '.'] then none else some (String.mk c)

/-- `exclusions.rs`, `is_excluded`: exact string membership in the exclusion
list. -/
def is_excluded (dir : String) (exclusions : List String) : Bool :=
  exclusions.any fun e => e == dir

/-- A scored directory result (`matching.rs`, `ScoredDir`). -/
structure ScoredDir where
  path : String
  score : ℚ
deriving DecidableEq, Repr

/-- `f64::partial_cmp`, with `none` standing for NaN: comparing with NaN is
incomparable (`none`); comparing two non-NaN values is total. -/
def fpCmp (x y : Option ℚ) : Option Ordering :=
  match x, y with
  | some a, some b => some (compare a b)
  | _, _ => none

/-- The sort comparator of `matching.rs` line 78:
`b.score.partial_cmp(&a.score).unwrap_or(Equal)` — incomparable (NaN) operands
fall back to `Ordering.eq`, so the comparator is total and never panics. -/
def cmpScores (x y : Option ℚ) : Ordering := (fpCmp x y).getD Ordering.eq

/-- The ordering relation induced by the code's comparator: `a` may precede `b`
exactly when the comparator does not order `a` after `b`, i.e. when
`b.score ≤ a.score` (descending by score). -/
def cmpLe (a b : ScoredDir) : Prop := b.score ≤ a.score

instance : DecidableRel cmpLe := fun a b => inferInstanceAs (Decidable (b.score ≤ a.score))

instance : IsTotal ScoredDir cmpLe := ⟨fun a b => le_total b.score a.score⟩

instance : IsTrans ScoredDir cmpLe := ⟨fun _ _ _ hab hbc => le_trans hbc hab⟩

/-- `cmpLe` is exactly "the code's comparator does not say `gt`". -/
theorem cmpLe_iff_comparator (a b : ScoredDir) :
    cmpLe a b ↔ cmpScores (some b.score) (some a.score) ≠ Ordering.gt := by
  unfold cmpLe cmpScores fpCmp
  simp [compare_gt_iff_gt, not_lt]

/-- The scoring closure of `rank_with`'s `map` (`matching.rs` lines 59-75):
base score, then the 1.5× boost when the last (lower-cased) keyword occurs in
the lower-cased basename. -/
def entry_score (e : DirEntry) (keywords_lower : List String) (mode : Mode)
    (now_ns : Int) : ℚ :=
  let s := score e now_ns mode
  match keywords_lower.getLast? with
  | some last_kw =>
    match file_name e.cwd with
    | some basename =>
      if strContains (toLowerStr basename) last_kw then s * (3 / 2) else s
    | none => s
  | none => s

/-- `matching.rs`, `rank_with` before its final sort: keyword filter, exclusion
filter, existence filter, then scoring with basename boost.  Order of elements
is the order of `entries`. -/
def rank_candidates (entries : List DirEntry) (keywords : List String) (mode : Mode)
    (now_ns : Int) (exclusions : List String) (dir_exists : String → Bool) :
    List ScoredDir :=
  let keywords_lower := keywords.map toLowerStr
  (((entries.filter fun e =>
        keywords_lower.all fun kw => strContains (toLowerStr e.cwd) kw).filter fun e =>
        ! is_excluded e.cwd exclusions).filter fun e =>
        dir_exists e.cwd).map fun e =>
    { path := e.cwd, score := entry_score e keywords_lower mode now_ns }

/-- `matching.rs`, `rank_with`: the candidates sorted descending by score with
the code's comparator.  Rust's `sort_by` is a stable sort, modelled by
(stable) insertion sort under the relation `cmpLe` induced by the comparator. -/
def rank_with (entries : List DirEntry) (keywords : List String) (mode : Mode)
    (now_ns : Int) (exclusions : List String) (dir_exists : String → Bool) :
    List ScoredDir :=
  List.insertionSort cmpLe (rank_candidates entries keywords mode now_ns exclusions dir_exists)

/-- Modelled from the spec's words: a candidate is retained when every keyword
is a case-insensitive substring of its path, it is not excluded, and it
exists. -/
def retained (e : DirEntry) (keywords : List String) (exclusions : List String)
    (dir_exists : String → Bool) : Bool :=
  (keywords.all fun kw => strContains (toLowerStr e.cwd) (toLowerStr kw))
    && ! is_excluded e.cwd exclusions && dir_exists e.cwd

/-- Modelled from the spec's words: the basename boost applies exactly when the
keyword list is non-empty and the lower-cased last keyword is a substring of
the lower-cased final path segment. -/
def basenameBoost (keywords : List String) (path : String) : Bool :=
  !keywords.isEmpty &&
    (file_name path).elim false fun b =>
      strContains (toLowerStr b) (toLowerStr ((keywords.getLast?).getD ""))

/-- Modelled from the spec's words: final score = base score, multiplied by
exactly 1.5 when the basename boost applies and left unchanged otherwise. -/
def claimFinalScore (e : DirEntry) (keywords : List String) (mode : Mode)
    (now_ns : Int) : ℚ :=
  score e now_ns mode * (if basenameBoost keywords e.cwd then 3 / 2 else 1)

/-- The code's scoring closure agrees with the spec-worded final score. -/
theorem entry_score_eq_claim (e : DirEntry) (keywords : List String) (mode : Mode)
    (now_ns : Int) :
    entry_score e (keywords.map toLowerStr) mode now_ns =
      claimFinalScore e keywords mode now_ns := by
  unfold entry_score claimFinalScore basenameBoost
  rw [List.getLast?_map]
  cases hk : keywords.getLast? with
  | none =>
    have hnil : keywords = [] := List.getLast?_eq_none_iff.mp hk
    subst hnil
    simp
  | some k =>
    have hne : keywords.isEmpty = false := by
      cases keywords with
      | nil => simp at hk
      | cons a l => rfl
    cases hf : file_name e.cwd with
    | none => simp [hf, hne]
    | some b =>
      by_cases hc : strContains (toLowerStr b) (toLowerStr k)
      · simp [hne, hc]
      · simp [hne, hc]

/-- `rank_candidates` equals the spec-worded pipeline: one filter by
`retained` (in input order) followed by scoring with `claimFinalScore`. -/
theorem rank_candidates_eq (entries : List DirEntry) (keywords : List String)
    (mode : Mode) (now_ns : Int) (exclusions : List String)
    (dir_exists : String → Bool) :
    rank_candidates entries keywords mode now_ns exclusions dir_exists =
      (entries.filter fun e => retained e keywords exclusions dir_exists).map fun e =>
        { path := e.cwd, score := claimFinalScore e keywords mode now_ns } := by
  simp only [rank_candidates]
  rw [List.filter_filter, List.filter_filter]
  have hfil :
      (fun e => dir_exists e.cwd && !is_excluded e.cwd exclusions &&
          ((keywords.map toLowerStr).all fun kw => strContains (toLowerStr e.cwd) kw)) =
        fun e => retained e keywords exclusions dir_exists := by
    funext e
    rw [List.all_map]
    unfold retained
    cases h1 : dir_exists e.cwd <;>
      cases h2 : is_excluded e.cwd exclusions <;>
        cases h3 : keywords.all fun kw => strContains (toLowerStr e.cwd) (toLowerStr kw) <;>
          simp_all [Function.comp]
  have hmap :
      (fun e => (⟨e.cwd, entry_score e (keywords.map toLowerStr) mode now_ns⟩ : ScoredDir)) =
        fun e => (⟨e.cwd, claimFinalScore e keywords mode now_ns⟩ : ScoredDir) := by
    funext e
    rw [entry_score_eq_claim]
  rw [hfil, hmap]

/-- `rank_with` is a permutation of the spec-worded pipeline's output. -/
theorem rank_with_perm (entries : List DirEntry) (keywords : List String)
    (mode : Mode) (now_ns : Int) (exclusions : List String)
    (dir_exists : String → Bool) :
    List.Perm (rank_with entries keywords mode now_ns exclusions dir_exists)
      ((entries.filter fun e => retained e keywords exclusions dir_exists).map fun e =>
        { path := e.cwd, score := claimFinalScore e keywords mode now_ns }) := by
  unfold rank_with
  rw [rank_candidates_eq]
  exact List.perm_insertionSort cmpLe _

/-- Filtering an `orderedInsert` by an exact score: the inserted element lands
in front of the elements of its own score class (every element it jumps over
has a strictly larger score), so the score class gains `x` at the front when
`x` belongs to it and is unchanged otherwise. -/
theorem filter_score_orderedInsert (q : ℚ) (x : ScoredDir) (l : List ScoredDir) :
    (List.orderedInsert cmpLe x l).filter (fun sd => decide (sd.score = q)) =
      if x.score = q then x :: l.filter (fun sd => decide (sd.score = q))
      else l.filter (fun sd => decide (sd.score = q)) := by
  induction l with
  | nil =>
    simp only [List.orderedInsert_nil]
    by_cases hx : x.score = q <;> simp [List.filter_cons, hx]
  | cons y ys ih =>
    simp only [List.orderedInsert]
    by_cases hxy : cmpLe x y
    · rw [if_pos hxy]
      by_cases hx : x.score = q <;> by_cases hy : y.score = q <;>
        simp [List.filter_cons, hx, hy]
    · rw [if_neg hxy]
      by_cases hy : y.score = q
      · have hx : ¬x.score = q := by
          intro hx
          exact hxy (le_of_eq (hy.trans hx.symm))
        simp [List.filter_cons, hy, hx, ih]
      · simp [List.filter_cons, hy, ih]

/-- Insertion sort under `cmpLe` is stable on score classes: filtering the
sorted list by any exact score gives the same sequence as filtering the
unsorted list. -/
theorem filter_score_insertionSort (q : ℚ) (l : List ScoredDir) :
    (List.insertionSort cmpLe l).filter (fun sd => decide (sd.score = q)) =
      l.filter (fun sd => decide (sd.score = q)) := by
  induction l with
  | nil => rfl
  | cons x xs ih =>
    simp only [List.insertionSort]
    rw [filter_score_orderedInsert, ih, List.filter_cons]
    by_cases hx : x.score = q <;> simp [hx]

/-- C1: For every `DirEntry` and every `now` timestamp, the Frecency-mode score
equals `visit_count` (as a float, here an exact rational) multiplied by the
bucket weight of `age = max(0, now - last_visit_time)`: 4.0 below 1 hour, 2.0
from 1 hour (inclusive) to 1 day, 0.5 from 1 day (inclusive) to 1 week, 0.25
from 1 week (inclusive) on — each boundary value falling into the next,
lower-weight bucket. -/
theorem frecency_score_eq_freq_mul_bucket_weight (e : DirEntry) (now_ns : Int) :
    score e now_ns Mode.Frecency =
      (e.freq : ℚ) * claimWeight (max 0 (now_ns - e.last_visit_ns)) := by
  show (e.freq : ℚ) * claimWeight (saturating_sub now_ns e.last_visit_ns) = _
  rw [claimWeight_saturating_sub]

/-- C7: the Frequency-mode score is `visit_count` as a float (exact rational),
independent of `last_visit_time` and of `now`. -/
theorem frequency_score_eq_freq (e : DirEntry) (now_ns : Int) :
    score e now_ns Mode.Frequency = (e.freq : ℚ) := rfl

/-- C8: with identical `visit_count`, the Recency-mode score is strictly
monotone in `last_visit_time` (and `visit_count` is ignored entirely). -/
theorem recency_score_strict_mono (e₁ e₂ : DirEntry) (now_ns : Int)
    (hfreq : e₁.freq = e₂.freq) (hlt : e₁.last_visit_ns < e₂.last_visit_ns) :
    score e₁ now_ns Mode.Recency < score e₂ now_ns Mode.Recency := by
  show (e₁.last_visit_ns : ℚ) < (e₂.last_visit_ns : ℚ)
  exact_mod_cast hlt

/-- Witness for C8 at a concrete input. -/
theorem recency_score_strict_mono_witness :
    score ⟨"/a", 7, 100⟩ 0 Mode.Recency < score ⟨"/a", 7, 200⟩ 0 Mode.Recency :=
  recency_score_strict_mono ⟨"/a", 7, 100⟩ ⟨"/a", 7, 200⟩ 0 rfl (by decide)

/-- C2: a candidate's path appears in `rank_with`'s output exactly when every
keyword is a case-insensitive substring of its path (AND over lower-cased
keywords and path; vacuously true for zero keywords) and it is neither
excluded nor failed by the existence predicate. -/
theorem rank_retains_iff_keywords (entries : List DirEntry) (keywords : List String)
    (mode : Mode) (now_ns : Int) (exclusions : List String) (dir_exists : String → Bool)
    (e : DirEntry) (he : e ∈ entries) :
    (∃ sd ∈ rank_with entries keywords mode now_ns exclusions dir_exists,
        sd.path = e.cwd) ↔
      ((keywords.all fun kw => strContains (toLowerStr e.cwd) (toLowerStr kw)) = true
        ∧ is_excluded e.cwd exclusions = false ∧ dir_exists e.cwd = true) := by
  constructor
  · rintro ⟨sd, hmem, hpath⟩
    rw [(rank_with_perm entries keywords mode now_ns exclusions dir_exists).mem_iff] at hmem
    obtain ⟨e2, he2, heq⟩ := List.mem_map.mp hmem
    obtain ⟨-, hr⟩ := List.mem_filter.mp he2
    have hcwd : e2.cwd = e.cwd := by rw [← hpath, ← heq]
    unfold retained at hr
    rw [hcwd] at hr
    simp only [Bool.and_eq_true, Bool.not_eq_true'] at hr
    exact ⟨hr.1.1, hr.1.2, hr.2⟩
  · rintro ⟨h1, h2, h3⟩
    refine ⟨⟨e.cwd, claimFinalScore e keywords mode now_ns⟩, ?_, rfl⟩
    rw [(rank_with_perm entries keywords mode now_ns exclusions dir_exists).mem_iff]
    refine List.mem_map.mpr ⟨e, ?_, rfl⟩
    refine List.mem_filter.mpr ⟨he, ?_⟩
    unfold retained
    simp [h1, h2, h3]

/-- Witness for C2 at the claim's concrete example: with keywords
`["projects", "bar"]` the path `/home/user/projects/bar` survives and
`/home/user/projects/foo` does not. -/
theorem rank_retains_iff_keywords_witness :
    (∃ sd ∈ rank_with
        [⟨"/home/user/projects/foo", 10, 0⟩, ⟨"/home/user/documents/bar", 10, 0⟩,
          ⟨"/home/user/projects/bar", 10, 0⟩]
        ["projects", "bar"] Mode.Frequency 0 [] fun _ => true,
        sd.path = "/home/user/projects/bar")
    ∧ ¬(∃ sd ∈ rank_with
        [⟨"/home/user/projects/foo", 10, 0⟩, ⟨"/home/user/documents/bar", 10, 0⟩,
          ⟨"/home/user/projects/bar", 10, 0⟩]
        ["projects", "bar"] Mode.Frequency 0 [] fun _ => true,
        sd.path = "/home/user/projects/foo") := by
  constructor
  · exact (rank_retains_iff_keywords
      [⟨"/home/user/projects/foo", 10, 0⟩, ⟨"/home/user/documents/bar", 10, 0⟩,
        ⟨"/home/user/projects/bar", 10, 0⟩]
      ["projects", "bar"] Mode.Frequency 0 [] (fun _ => true)
      ⟨"/home/user/projects/bar", 10, 0⟩ (by decide)).mpr (by decide)
  · rintro ⟨sd, hmem, hpath⟩
    have h := (rank_retains_iff_keywords
      [⟨"/home/user/projects/foo", 10, 0⟩, ⟨"/home/user/documents/bar", 10, 0⟩,
        ⟨"/home/user/projects/bar", 10, 0⟩]
      ["projects", "bar"] Mode.Frequency 0 [] (fun _ => true)
      ⟨"/home/user/projects/foo", 10, 0⟩ (by decide)).mp ⟨sd, hmem, hpath⟩
    exact absurd h.1 (by decide)

/-- C3: `rank_with`'s output is, up to the sort's permutation, the retained
candidates scored by `claimFinalScore`, i.e. the base score multiplied by
exactly 1.5 when the keyword list is non-empty and the lower-cased last
keyword is a substring of the lower-cased basename, and the base score
unchanged otherwise (keyword-less invocations and non-matching or absent
basenames included). -/
theorem rank_scores_basename_boost (entries : List DirEntry) (keywords : List String)
    (mode : Mode) (now_ns : Int) (exclusions : List String)
    (dir_exists : String → Bool) :
    List.Perm (rank_with entries keywords mode now_ns exclusions dir_exists)
      ((entries.filter fun e => retained e keywords exclusions dir_exists).map fun e =>
        (⟨e.cwd, claimFinalScore e keywords mode now_ns⟩ : ScoredDir)) :=
  rank_with_perm entries keywords mode now_ns exclusions dir_exists

/-- C4: `rank_with`'s output is sorted in descending order of final score
(`cmpLe a b` says the later element's score is at most the earlier one's),
and the code's comparator (`partial_cmp` with `unwrap_or(Equal)`) maps any
incomparable (NaN) pair to `Ordering.eq`, so no comparison can panic. -/
theorem rank_sorted_descending :
    (∀ (entries : List DirEntry) (keywords : List String) (mode : Mode) (now_ns : Int)
        (exclusions : List String) (dir_exists : String → Bool),
        List.Sorted cmpLe (rank_with entries keywords mode now_ns exclusions dir_exists))
    ∧ ∀ x y : Option ℚ, fpCmp x y = none → cmpScores x y = Ordering.eq := by
  constructor
  · intro entries keywords mode now_ns exclusions dir_exists
    exact List.sorted_insertionSort cmpLe _
  · intro x y h
    unfold cmpScores
    rw [h]
    rfl

/-- Witness for C4 at a concrete input. -/
theorem rank_sorted_descending_witness :
    List.Sorted cmpLe
        (rank_with [⟨"/a", 5, 0⟩, ⟨"/b", 3, 0⟩] [] Mode.Frequency 0 [] fun _ => true)
      ∧ cmpScores none (some 1) = Ordering.eq :=
  ⟨rank_sorted_descending.1 [⟨"/a", 5, 0⟩, ⟨"/b", 3, 0⟩] [] Mode.Frequency 0 []
      (fun _ => true),
    rank_sorted_descending.2 none (some 1) rfl⟩

/-- C5: a path present verbatim in the exclusion list never appears in
`rank_with`'s output, and exclusion membership is exact string equality
(so prefixes, substrings or parent directories of an entry are not excluded
by it). -/
theorem excluded_paths_absent :
    (∀ (entries : List DirEntry) (keywords : List String) (mode : Mode) (now_ns : Int)
        (exclusions : List String) (dir_exists : String → Bool) (p : String),
        p ∈ exclusions →
        ∀ sd ∈ rank_with entries keywords mode now_ns exclusions dir_exists,
          sd.path ≠ p)
    ∧ ∀ (dir : String) (exclusions : List String),
        is_excluded dir exclusions = true ↔ dir ∈ exclusions := by
  have hmem : ∀ (dir : String) (exclusions : List String),
      is_excluded dir exclusions = true ↔ dir ∈ exclusions := by
    intro dir excl
    unfold is_excluded
    rw [List.any_eq_true]
    constructor
    · rintro ⟨x, hx, hbe⟩
      rw [beq_iff_eq] at hbe
      exact hbe ▸ hx
    · intro h
      exact ⟨dir, h, beq_self_eq_true dir⟩
  refine ⟨?_, hmem⟩
  intro entries keywords mode now_ns exclusions dir_exists p hp sd hsd hpeq
  rw [(rank_with_perm entries keywords mode now_ns exclusions dir_exists).mem_iff] at hsd
  obtain ⟨e2, he2, heq⟩ := List.mem_map.mp hsd
  obtain ⟨-, hr⟩ := List.mem_filter.mp he2
  unfold retained at hr
  simp only [Bool.and_eq_true, Bool.not_eq_true'] at hr
  have hpath : e2.cwd = sd.path := by rw [← heq]
  have htrue : is_excluded e2.cwd exclusions = true :=
    (hmem e2.cwd exclusions).mpr (by rw [hpath, hpeq]; exact hp)
  rw [hr.1.2] at htrue
  exact Bool.false_ne_true htrue

/-- Witness for C5 at a concrete input: with `/home/user/remove` excluded, the
(retained) output element's path differs from it; and a path that is only a
proper prefix of an exclusion entry is not excluded by it. -/
theorem excluded_paths_absent_witness :
    ((⟨"/home/user/keep", ((10 : Int) : ℚ)⟩ : ScoredDir)).path ≠ "/home/user/remove"
    ∧ (is_excluded "/home/user/proj" ["/home/user/project"] = true ↔
        "/home/user/proj" ∈ (["/home/user/project"] : List String)) :=
  ⟨excluded_paths_absent.1 [⟨"/home/user/keep", 10, 0⟩, ⟨"/home/user/remove", 10, 0⟩]
      [] Mode.Frequency 0 ["/home/user/remove"] (fun _ => true) "/home/user/remove"
      (by decide) ⟨"/home/user/keep", ((10 : Int) : ℚ)⟩ (by decide),
    excluded_paths_absent.2 "/home/user/proj" ["/home/user/project"]⟩

/-- C6: a candidate whose path fails the existence predicate never appears in
`rank_with`'s output. -/
theorem nonexistent_paths_absent :
    ∀ (entries : List DirEntry) (keywords : List String) (mode : Mode) (now_ns : Int)
      (exclusions : List String) (dir_exists : String → Bool) (p : String),
      dir_exists p = false →
      ∀ sd ∈ rank_with entries keywords mode now_ns exclusions dir_exists,
        sd.path ≠ p := by
  intro entries keywords mode now_ns exclusions dir_exists p hdp sd hsd hpeq
  rw [(rank_with_perm entries keywords mode now_ns exclusions dir_exists).mem_iff] at hsd
  obtain ⟨e2, he2, heq⟩ := List.mem_map.mp hsd
  obtain ⟨-, hr⟩ := List.mem_filter.mp he2
  unfold retained at hr
  simp only [Bool.and_eq_true, Bool.not_eq_true'] at hr
  have hpath : e2.cwd = sd.path := by rw [← heq]
  have htrue : dir_exists p = true := by rw [← hpeq, ← hpath]; exact hr.2
  rw [hdp] at htrue
  exact Bool.false_ne_true htrue

/-- Witness for C6 at a concrete input. -/
theorem nonexistent_paths_absent_witness :
    ((⟨"/exists", ((10 : Int) : ℚ)⟩ : ScoredDir)).path ≠ "/gone" :=
  nonexistent_paths_absent [⟨"/exists", 10, 0⟩, ⟨"/gone", 10, 0⟩] [] Mode.Frequency 0 []
    (fun p => p == "/exists") "/gone" (by decide) ⟨"/exists", ((10 : Int) : ℚ)⟩ (by decide)

/-- SQLite's default ASCII case folding used by `LIKE`: upper-case ASCII
letters fold to lower case, every other character is unchanged. -/
def asciiLower (c : Char) : Char :=
  if 'A' ≤ c ∧ c ≤ 'Z' then Char.ofNat (c.toNat + 32) else c

/-- SQLite `LIKE` pattern matching (no `ESCAPE` clause), as used by
`db.rs`, `query_dirs`: `%` matches any sequence of zero or more characters,
`_` matches any single character, and other characters match ASCII
case-insensitively. -/
def like : List Char → List Char → Bool
  | [], ts => ts.isEmpty
  | p :: ps, ts =>
    if p = '%' then
      ts.tails.any (like ps)
    else
      match ts with
      | [] => false
      | t :: ts2 =>
        if p = '_' then like ps ts2
        else asciiLower p == asciiLower t && like ps ts2

/-- `max(timestamp)` over a group (0 for the empty group, which never occurs
for a `GROUP BY` group). -/
def listMaxInt : List Int → Int
  | [] => 0
  | x :: xs => xs.foldl max x

/-- A row of the Atuin `history` table, restricted to the columns `query_dirs`
reads (`timestamp`, `cwd`, `deleted_at`; `id` kept as the key). -/
structure HistoryRow where
  id : String
  timestamp : Int
  cwd : String
  deleted_at : Option Int
deriving DecidableEq, Repr

/-- `db.rs`, `query_dirs`: aggregate non-deleted history rows per distinct
`cwd` with `count(*)` and `max(timestamp)`; when a prefix is supplied, keep
only rows whose `cwd` matches the SQL pattern `prefix/%` under SQLite `LIKE`
semantics (`cwd_pre` models the Rust parameter `cwd_prefix`). -/
def query_dirs (rows : List HistoryRow) (cwd_pre : Option String) : List DirEntry :=
  let live : List HistoryRow := rows.filter fun r => r.deleted_at.isNone
  let selected : List HistoryRow :=
    match cwd_pre with
    | some pfx => live.filter fun r => like (pfx.data ++ ['/', '%']) r.cwd.data
    | none => live
  (selected.map fun r => r.cwd).dedup.map fun c =>
    let grp := selected.filter fun r => r.cwd == c
    (⟨c, (grp.length : Int), listMaxInt (grp.map fun r => r.timestamp)⟩ : DirEntry)

/-- A final `%` after literal pattern characters: a successful match forces
the text to start (ASCII case-insensitively) with the literals and then a
literal `/`. -/
theorem like_literal_append (lits : List Char) (ts : List Char)
    (h : ∀ c ∈ lits, c ≠ '%' ∧ c ≠ '_')
    (hl : like (lits ++ ['/', '%']) ts = true) :
    (ts.map asciiLower).take (lits.length + 1) = lits.map asciiLower ++ ['/']
      ∧ lits.length + 1 ≤ ts.length := by
  induction lits generalizing ts with
  | nil =>
    cases ts with
    | nil => simp [like] at hl
    | cons t ts2 =>
      simp only [List.nil_append, like, if_neg (by decide : ¬('/' : Char) = '%'),
        if_neg (by decide : ¬('/' : Char) = '_'), Bool.and_eq_true, beq_iff_eq] at hl
      obtain ⟨hb, -⟩ := hl
      have hb2 : asciiLower t = '/' := by
        rw [← hb]
        decide
      constructor
      · simp [hb2]
      · simp
  | cons l ls ih =>
    have hne := h l (List.mem_cons_self l ls)
    cases ts with
    | nil =>
      simp [like, if_neg hne.1] at hl
    | cons t ts2 =>
      simp only [List.cons_append, like, if_neg hne.1, if_neg hne.2,
        Bool.and_eq_true, beq_iff_eq] at hl
      obtain ⟨hb, hrec⟩ := hl
      obtain ⟨ih1, ih2⟩ := ih ts2 (fun c hc => h c (List.mem_cons_of_mem l hc)) hrec
      constructor
      · simp only [List.map_cons, List.length_cons, List.take_succ_cons, ih1, ← hb,
          List.cons_append]
      · simp only [List.length_cons]
        omega

/-- Any `DirEntry` returned by `query_dirs` for a supplied prefix has a `cwd`
matching the SQL pattern `prefix/%`. -/
theorem mem_query_dirs_like (rows : List HistoryRow) (pfx : String) (e : DirEntry)
    (he : e ∈ query_dirs rows (some pfx)) :
    like (pfx.data ++ ['/', '%']) e.cwd.data = true := by
  simp only [query_dirs] at he
  obtain ⟨c, hc, heq⟩ := List.mem_map.mp he
  have hcwd : e.cwd = c := by rw [← heq]
  rw [List.mem_dedup] at hc
  obtain ⟨r, hr, hrc⟩ := List.mem_map.mp hc
  obtain ⟨-, hlike⟩ := List.mem_filter.mp hr
  rw [hcwd, ← hrc]
  exact hlike

/-- For a prefix containing no SQL wildcard (`%`, `_`), every returned path
begins — up to SQLite's ASCII case folding — with the prefix followed by
`/`, and in particular is strictly longer than (hence never equal to) the
prefix itself.  This is C9's property restricted to wildcard-free prefixes. -/
theorem query_dirs_strict_descendants (rows : List HistoryRow) (pfx : String)
    (hw : ∀ c ∈ pfx.data, c ≠ '%' ∧ c ≠ '_')
    (e : DirEntry) (he : e ∈ query_dirs rows (some pfx)) :
    (e.cwd.data.map asciiLower).take (pfx.data.length + 1) =
        pfx.data.map asciiLower ++ ['/']
      ∧ e.cwd ≠ pfx := by
  have hlike := mem_query_dirs_like rows pfx e he
  obtain ⟨h1, h2⟩ := like_literal_append pfx.data e.cwd.data hw hlike
  refine ⟨h1, ?_⟩
  intro hcontra
  rw [hcontra] at h2
  omega

/-- Witness for the wildcard-free descendant property at a concrete input:
with prefix `/home/user`, the returned path `/home/user/child` starts with
`/home/user/` and the prefix row itself is not returned as that path. -/
theorem query_dirs_strict_descendants_witness :
    ((("/home/user/child").data.map asciiLower).take
          (("/home/user").data.length + 1) =
        ("/home/user").data.map asciiLower ++ ['/'])
      ∧ ("/home/user/child" : String) ≠ "/home/user" :=
  query_dirs_strict_descendants
    [⟨"1", 100, "/home/user", none⟩, ⟨"2", 200, "/home/user/child", none⟩]
    "/home/user" (by decide) ⟨"/home/user/child", 1, 200⟩ (by decide)

/-- C9 fails on the code as stated: SQLite `LIKE` gives `_` (a legal pathname
character) wildcard meaning, so with prefix `/a_` the row at `/ab/c` is
returned although `/ab/c` does not begin with `/a_/` and is no descendant of
`/a_`. -/
theorem query_dirs_wildcard_eval :
    query_dirs [⟨"1", 100, "/ab/c", none⟩] (some "/a_") = [⟨"/ab/c", 1, 100⟩]
      ∧ ¬("/a_/").data <+: ("/ab/c").data := by
  constructor
  · decide
  · decide

/-- C10: the descending sort is stable — for every exact score value, the
output elements with that final score appear in exactly the order the
candidate list (which preserves the order of `entries`) produced them, so
ties are broken deterministically by original input order. -/
theorem equal_scores_preserve_input_order (entries : List DirEntry)
    (keywords : List String) (mode : Mode) (now_ns : Int) (exclusions : List String)
    (dir_exists : String → Bool) (q : ℚ) :
    (rank_with entries keywords mode now_ns exclusions dir_exists).filter
        (fun sd => decide (sd.score = q)) =
      (rank_candidates entries keywords mode now_ns exclusions dir_exists).filter
        (fun sd => decide (sd.score = q)) := by
  unfold rank_with
  exact filter_score_insertionSort q _

end AtuinZ
